import Mathlib

/-!
Verification of the world-map ripple renderer (wm-ripple-gl).

The repository implements one algorithm three times (an OGL wrapper, a
standalone WebGL2 version, and an older OGL version).  The definitions below
are a shallow embedding of that algorithm over exact rationals:

* JavaScript numeric code is embedded over `ℚ`; the JavaScript remainder
  operator `%` (sign of the dividend) and GLSL `mod` (floor mod) are modelled
  separately because they differ on negative arguments.
* GLSL shader functions (`clamp`, `smoothstep`, `mix`, `step`, the fragment
  shader body) are embedded componentwise over `ℚ`; the single use of
  `length` (a square root) is embedded by its square, with comparisons
  against a nonnegative bound rewritten equivalently
  (`length q ≤ c ↔ 0 ≤ c ∧ |q|² ≤ c²`), keeping every definition computable.
* Control flow around the frame loop is embedded as explicit state passing.
-/

/-- GLSL clamp(x, lo, hi) = min(max(x, lo), hi). -/
def clampQ (x lo hi : ℚ) : ℚ := min (max x lo) hi

/-- GLSL smoothstep(e0, e1, x): cubic Hermite after clamping
    t = clamp((x-e0)/(e1-e0), 0, 1); result t*t*(3-2t). -/
def smoothstepQ (e0 e1 x : ℚ) : ℚ :=
  let t := clampQ ((x - e0) / (e1 - e0)) 0 1
  t * t * (3 - 2 * t)

/-- GLSL mix(x, y, a) = x*(1-a) + y*a. -/
def mixQ (x y a : ℚ) : ℚ := x * (1 - a) + y * a

/-- GLSL mod(x, y) = x - y*floor(x/y)  (floor modulus, in [0,y) for y>0). -/
def glslMod (x y : ℚ) : ℚ := x - y * ⌊x / y⌋

/-- JavaScript remainder `a % b` for `b > 0`: the result carries the sign of
    the dividend `a` (ECMAScript remainder, unlike the floor modulus). -/
def jsRem (a b : ℚ) : ℚ :=
  if 0 ≤ a then a - b * ⌊a / b⌋ else -((-a) - b * ⌊(-a) / b⌋)

/-- JavaScript Math.round: half-up rounding, ⌊x + 1/2⌋. -/
def jsRound (q : ℚ) : ℤ := ⌊q + 1 / 2⌋

/-- Intensity curve from the fragment shader (function rippleWindow):
    if (tNorm < 0.03) return smoothstep(0.0, 0.03, tNorm);
    else if (tNorm < 0.10) return 1.0;
    float k = (tNorm - 0.10) / 0.90; return 1.0 - k; -/
def rippleWindow (tNorm : ℚ) : ℚ :=
  if tNorm < 3 / 100 then smoothstepQ 0 (3 / 100) tNorm
  else if tNorm < 1 / 10 then 1
  else 1 - (tNorm - 1 / 10) / (9 / 10)

/-- Rounded-rect mask from the fragment shader (function roundedRectMask).
    Source: a = abs(uv) - 0.5 + vec2(corner); outside = max(a.x, a.y);
    m = step(outside, 0.0); q = max(a, 0.0); r = length(q) - corner;
    m *= step(r, 0.0); accept iff m = 1.
    step(outside, 0.0) is `outside ≤ 0`; step(length q - corner, 0.0) is
    `length q ≤ corner`, which (as length q ≥ 0) holds iff
    `0 ≤ corner ∧ q.x² + q.y² ≤ corner²` — the form used here so the
    definition stays computable over ℚ. -/
def roundedRectMask (uv : ℚ × ℚ) (corner : ℚ) : Bool :=
  let a : ℚ × ℚ := (|uv.1| - 1 / 2 + corner, |uv.2| - 1 / 2 + corner)
  let outside := max a.1 a.2
  let q : ℚ × ℚ := (max a.1 0, max a.2 0)
  decide (outside ≤ 0) && (decide (0 ≤ corner) && decide (q.1 ^ 2 + q.2 ^ 2 ≤ corner ^ 2))

/-- Fragment shader main (non-discarded pixels): t = uTime + vDelay;
    tCycle = mod(t, uCycle); tNorm = tCycle / uCycle; w = rippleWindow(tNorm);
    col = mix(uIdle, uBright, w); output vec4(col, 1.0). -/
def shadePixel (time delay cycle : ℚ) (idle bright : ℚ × ℚ × ℚ) :
    (ℚ × ℚ × ℚ) × ℚ :=
  let t := time + delay
  let tCycle := glslMod t cycle
  let tNorm := tCycle / cycle
  let w := rippleWindow tNorm
  ((mixQ idle.1 bright.1 w, mixQ idle.2.1 bright.2.1 w, mixQ idle.2.2 bright.2.2 w), 1)

/-- Per-point delay from initRipple:
    let phaseSec = seedPhase[bestIdx] + travelSec + jitter;
    phaseSec = -(phaseSec % cycleSec);
    if (phaseSec === 0) phaseSec = -0.0001;  -/
def computeDelay (seedPhase travelSec jitter cycle : ℚ) : ℚ :=
  let phaseSec := seedPhase + travelSec + jitter
  let phaseSec2 := -(jsRem phaseSec cycle)
  if phaseSec2 = 0 then -(1 / 10000) else phaseSec2

/-- Point sample {x, y, r?}; `r` is optional in the JSON payload. -/
structure Pt where
  x : ℚ
  y : ℚ
  r : Option ℚ
deriving DecidableEq

/-- JavaScript `p.r || 0`: a missing radius reads as 0. -/
def rOf (p : Pt) : ℚ := p.r.getD 0

/-- SVG-like viewbox {x, y, width, height}. -/
structure Viewbox where
  x : ℚ
  y : ℚ
  width : ℚ
  height : ℚ
deriving DecidableEq

/-- Accumulator of the bounds loop.  The `Option` components model the
    ±Infinity initialisers (`none` = not yet updated, i.e. ±Infinity);
    `maxR` starts at the finite 0 exactly as in the source. -/
structure BoundsAcc where
  minX : Option ℚ
  minY : Option ℚ
  maxX : Option ℚ
  maxY : Option ℚ
  maxR : ℚ
deriving DecidableEq

/-- Running-minimum update `if (x < m) m = x`, where m may still be the
    Infinity initialiser (`none`): a comparison against Infinity always
    updates. -/
def updMin (o : Option ℚ) (x : ℚ) : Option ℚ :=
  match o with
  | none => some x
  | some v => if x < v then some x else some v

/-- Running-maximum update `if (x > m) m = x`, where m may still be the
    -Infinity initialiser (`none`). -/
def updMax (o : Option ℚ) (x : ℚ) : Option ℚ :=
  match o with
  | none => some x
  | some v => if x > v then some x else some v

/-- One iteration of the bounds loop:
    if (p.x < minX) minX = p.x; if (p.y < minY) minY = p.y;
    if (p.x > maxX) maxX = p.x; if (p.y > maxY) maxY = p.y;
    if ((p.r || 0) > maxR) maxR = p.r || 0. -/
def boundsStep (b : BoundsAcc) (p : Pt) : BoundsAcc :=
  { minX := updMin b.minX p.x
    minY := updMin b.minY p.y
    maxX := updMax b.maxX p.x
    maxY := updMax b.maxY p.y
    maxR := if rOf p > b.maxR then rOf p else b.maxR }

/-- The bounds loop over the whole point list. -/
def scanBounds (pts : List Pt) : BoundsAcc :=
  pts.foldl boundsStep ⟨none, none, none, none, 0⟩

/-- Viewbox from the scanned bounds:
    pad = Math.max(maxR, 1); vbX = minX - pad; vbY = minY - pad;
    vbW = (maxX - minX) + pad*2; vbH = (maxY - minY) + pad*2.
    The `getD 0` reads never fire on the non-empty inputs the caller
    guarantees (empty data is a fatal error before this point). -/
def viewboxOf (pts : List Pt) : Viewbox :=
  let b := scanBounds pts
  let pad := max b.maxR 1
  let minX := b.minX.getD 0
  let minY := b.minY.getD 0
  let maxX := b.maxX.getD 0
  let maxY := b.maxY.getD 0
  ⟨minX - pad, minY - pad, (maxX - minX) + pad * 2, (maxY - minY) + pad * 2⟩

/-- Projection scale from updateTransforms: sx = 2/vbW; sy = -2/vbH. -/
def projScale (vb : Viewbox) : ℚ × ℚ := (2 / vb.width, -2 / vb.height)

/-- Projection offset from updateTransforms: ox = -1 - vbX*sx; oy = 1 - vbY*sy. -/
def projOffset (vb : Viewbox) : ℚ × ℚ :=
  (-1 - vb.x * (projScale vb).1, 1 - vb.y * (projScale vb).2)

/-- The affine data→NDC map (x,y) ↦ (x*sx + ox, y*sy + oy) used by the
    vertex shader with the uniforms produced by updateTransforms. -/
def projMap (vb : Viewbox) (q : ℚ × ℚ) : ℚ × ℚ :=
  (q.1 * (projScale vb).1 + (projOffset vb).1,
   q.2 * (projScale vb).2 + (projOffset vb).2)

/-- Squared Euclidean distance between a point and a seed.  The source
    compares Math.hypot(p.x-S.x, p.y-S.y) values; hypot is the square root
    of this quantity, and square root is strictly monotone on nonnegatives,
    so the nearest-seed comparisons are embedded on the squares to keep the
    scan computable over ℚ. -/
def distSq (p S : Pt) : ℚ := (p.x - S.x) ^ 2 + (p.y - S.y) ^ 2

/-- State of the nearest-seed scan after its first n iterations, as a
    recursion on the iteration count: initially (bestIdx, best) = (0, none)
    where `none` models best = Infinity; iteration s does
    if (d < best) { best = d; bestIdx = s; } — a comparison against
    Infinity always updates. -/
def scanLoop (d : ℕ → ℚ) : ℕ → ℕ × Option ℚ
  | 0 => (0, none)
  | n + 1 =>
    let acc := scanLoop d n
    match acc.2 with
    | none => (n, some (d n))
    | some b => if d n < b then (n, some (d n)) else (acc.1, some b)

/-- Index of the nearest seed for point p: the full scan over the seed list
    (for (s = 0; s < seeds.length; s++) with the body above). -/
def nearestSeed (p : Pt) (seeds : List Pt) : ℕ :=
  (scanLoop (fun s => distSq p (seeds.getD s ⟨0, 0, none⟩)) seeds.length).1

/-- JavaScript destructuring swap [l[i], l[j]] = [l[j], l[i]] on an index
    array (all accesses are in range at every call site). -/
def lswap (l : List ℕ) (i j : ℕ) : List ℕ :=
  (l.set i (l.getD j 0)).set j (l.getD i 0)

/-- Fisher-Yates loop: for (i = len-1; i > 0; i--) swap(i, g(i)), where
    g(i) = (Math.random()*(i+1))|0 ∈ [0, i].  fyLoop g i l runs the
    iterations i, i-1, ..., 1 on l. -/
def fyLoop (g : ℕ → ℕ) : ℕ → List ℕ → List ℕ
  | 0, l => l
  | i + 1, l => fyLoop g i (lswap l (i + 1) (g (i + 1)))

/-- The shuffled index permutation: indices = Array.from(pts.keys()) is
    [0, ..., n-1], then the Fisher-Yates loop. -/
def shuffleIndices (g : ℕ → ℕ) (n : ℕ) : List ℕ := fyLoop g (n - 1) (List.range n)

/-- seedCount = Math.max(1, Math.min(maxSeeds, Math.round(n * seedFraction))). -/
def seedCount (n : ℕ) (seedFraction : ℚ) (maxSeeds : ℕ) : ℕ :=
  (max 1 (min (maxSeeds : ℤ) (jsRound ((n : ℚ) * seedFraction)))).toNat

/-- seedIdxs = indices.slice(0, seedCount).sort((a,b) => a-b).  A comparison
    sort of a duplicate-free list of numbers produces the unique ascending
    arrangement, embedded here as insertion sort. -/
def seedIdxs (g : ℕ → ℕ) (n : ℕ) (seedFraction : ℚ) (maxSeeds : ℕ) : List ℕ :=
  ((shuffleIndices g n).take (seedCount n seedFraction maxSeeds)).insertionSort (· ≤ ·)

/-- Observable state of the frame driver: the running/paused flag, the uTime
    uniform, and the list of uTime values at which a frame was drawn (most
    recent first). -/
structure FrameState where
  running : Bool
  uTime : ℚ
  draws : List ℚ
deriving DecidableEq

/-- Start-up of the frame driver (wm-ripple-gl.js): `running` starts true;
    if the environment prefers reduced motion, running is set to false, the
    uTime uniform to 0, and one frame is rendered immediately. -/
def initFrameState (reducedMotion : Bool) : FrameState :=
  let s : FrameState := ⟨true, 0, []⟩
  if reducedMotion then
    let s1 : FrameState := ⟨false, 0, s.draws⟩
    ⟨s1.running, s1.uTime, s1.uTime :: s1.draws⟩
  else s

/-- One invocation of the animation callback animate(tMs):
    if (running) { uTime = tMs * 0.001; render; }
    requestAnimationFrame(animate).
    The Bool records whether the callback rescheduled itself — the
    requestAnimationFrame call is unconditional, so it always does. -/
def animate (s : FrameState) (tMs : ℚ) : FrameState × Bool :=
  let s2 := if s.running then
      (⟨s.running, tMs * (1 / 1000), (tMs * (1 / 1000)) :: s.draws⟩ : FrameState)
    else s
  (s2, true)

/-- Fatal initialization conditions of the standalone initRipple. -/
inductive FatalReason where
  | canvasNotFound
  | webgl2Unavailable
  | dataUrlMissing
  | fetchFailed
  | dataInvalid
  | dataEmpty
  | shaderCompileFailed
  | programLinkFailed
deriving DecidableEq

/-- Result of initialization: a fatal early return/throw, or success. -/
inductive InitResult where
  | fatal (r : FatalReason)
  | ok
deriving DecidableEq

/-- Environment facts initRipple observes, in the order it observes them. -/
structure InitEnv where
  canvasFound : Bool
  webgl2Available : Bool
  dataUrlGiven : Bool
  fetchOk : Bool
  payload : Option (List Pt)
  shadersCompile : Bool
  programLinks : Bool
deriving DecidableEq

/-- Straight-line transcription of the guard sequence of the standalone
    initRipple: every fatal condition returns (or, for shader compile and
    program link failures, throws) before the frame loop is reached.  The
    Bool records whether requestAnimationFrame(frame) was called — it is
    called exactly once, after the last guard.  `payload = none` models a
    fetched body that is not a JSON array. -/
def initRippleModel (e : InitEnv) : InitResult × Bool :=
  if ¬ e.canvasFound then (.fatal .canvasNotFound, false)
  else if ¬ e.webgl2Available then (.fatal .webgl2Unavailable, false)
  else if ¬ e.dataUrlGiven then (.fatal .dataUrlMissing, false)
  else if ¬ e.fetchOk then (.fatal .fetchFailed, false)
  else
    match e.payload with
    | none => (.fatal .dataInvalid, false)
    | some pts =>
      if pts.isEmpty then (.fatal .dataEmpty, false)
      else if ¬ e.shadersCompile then (.fatal .shaderCompileFailed, false)
      else if ¬ e.programLinks then (.fatal .programLinkFailed, false)
      else (.ok, true)

/-- C2: the intensity curve is exactly the three-segment envelope —
    smoothstep ease-in on [0, 0.03), constant 1 on [0.03, 0.10), linear decay
    on [0.10, 1); continuous at the boundaries (w(0)=0, left and right values
    at 0.03 equal 1, w(0.10)=1, w → 0 as tNorm → 1⁻), monotonically
    non-increasing on [0.10, 1); and w(0.05)=1, w(0.9)=1-(0.9-0.10)/0.90. -/
theorem rippleWindow_envelope :
    rippleWindow 0 = 0
    ∧ (∀ t : ℚ, 0 ≤ t → t < 3 / 100 → rippleWindow t = smoothstepQ 0 (3 / 100) t)
    ∧ smoothstepQ 0 (3 / 100) (3 / 100) = 1
    ∧ (∀ ε : ℚ, 0 < ε → ∃ δ : ℚ, 0 < δ ∧
        ∀ t : ℚ, 3 / 100 - δ < t → t < 3 / 100 → |rippleWindow t - 1| < ε)
    ∧ rippleWindow (3 / 100) = 1
    ∧ (∀ t : ℚ, 3 / 100 ≤ t → t < 1 / 10 → rippleWindow t = 1)
    ∧ rippleWindow (1 / 10) = 1
    ∧ (∀ t : ℚ, 1 / 10 ≤ t → t < 1 →
        rippleWindow t = 1 - (t - 1 / 10) / (9 / 10))
    ∧ (∀ ε : ℚ, 0 < ε → ∃ δ : ℚ, 0 < δ ∧
        ∀ t : ℚ, 1 - δ < t → t < 1 → |rippleWindow t| < ε)
    ∧ (∀ a b : ℚ, 1 / 10 ≤ a → a ≤ b → b < 1 →
        rippleWindow b ≤ rippleWindow a)
    ∧ rippleWindow (1 / 20) = 1
    ∧ rippleWindow (9 / 10) = 1 - (9 / 10 - 1 / 10) / (9 / 10) := by
  refine ⟨by norm_num [rippleWindow, smoothstepQ, clampQ, min_def, max_def], ?_,
    by norm_num [smoothstepQ, clampQ, min_def, max_def], ?_,
    by norm_num [rippleWindow, smoothstepQ, clampQ, min_def, max_def], ?_,
    by norm_num [rippleWindow], ?_, ?_, ?_,
    by norm_num [rippleWindow], by norm_num [rippleWindow]⟩
  · intro t _ h2
    unfold rippleWindow
    rw [if_pos h2]
  · -- left limit at 0.03 is 1
    intro ε hε
    refine ⟨min (ε / 100) (3 / 100), lt_min (by positivity) (by norm_num), ?_⟩
    intro t ht1 ht2
    have hδ1 : min (ε / 100) (3 / 100) ≤ ε / 100 := min_le_left _ _
    have hδ2 : min (ε / 100) (3 / 100) ≤ 3 / 100 := min_le_right _ _
    have ht0 : (0:ℚ) ≤ t := by linarith
    have hw : rippleWindow t = smoothstepQ 0 (3 / 100) t := by
      unfold rippleWindow
      rw [if_pos ht2]
    -- on this segment the clamp is the identity: t/(3/100) ∈ [0,1)
    have hx0 : (0:ℚ) ≤ t / (3 / 100) := by positivity
    have hx1 : t / (3 / 100) < 1 := by
      rw [div_lt_one (by norm_num)]; exact ht2
    have hsm : smoothstepQ 0 (3 / 100) t
        = (t / (3 / 100)) * (t / (3 / 100)) * (3 - 2 * (t / (3 / 100))) := by
      simp only [smoothstepQ, clampQ, sub_zero]
      rw [max_eq_left hx0, min_eq_left (le_of_lt hx1)]
    have hgap : |rippleWindow t - 1|
        = (1 - t / (3 / 100)) ^ 2 * (1 + 2 * (t / (3 / 100))) := by
      rw [hw, hsm,
        show (t / (3 / 100)) * (t / (3 / 100)) * (3 - 2 * (t / (3 / 100))) - 1
          = -((1 - t / (3 / 100)) ^ 2 * (1 + 2 * (t / (3 / 100)))) from by ring,
        abs_neg, abs_of_nonneg (mul_nonneg (sq_nonneg _) (by linarith))]
    have h5 : (0:ℚ) ≤ 1 - t / (3 / 100) := by linarith
    have h6 : (1 - t / (3 / 100)) * (1 + 2 * (t / (3 / 100))) ≤ 3 := by
      nlinarith [sq_nonneg (t / (3 / 100) - 1 / 4)]
    have key : |rippleWindow t - 1| ≤ 100 * (3 / 100 - t) := by
      rw [hgap]
      have hu : 100 * (3 / 100 - t) = 3 * (1 - t / (3 / 100)) := by ring
      rw [hu]
      calc (1 - t / (3 / 100)) ^ 2 * (1 + 2 * (t / (3 / 100)))
          = (1 - t / (3 / 100)) * ((1 - t / (3 / 100)) * (1 + 2 * (t / (3 / 100)))) := by
            ring
        _ ≤ (1 - t / (3 / 100)) * 3 := mul_le_mul_of_nonneg_left h6 h5
        _ = 3 * (1 - t / (3 / 100)) := by ring
    have hlt : 100 * (3 / 100 - t) < 100 * min (ε / 100) (3 / 100) := by linarith
    have hle : 100 * min (ε / 100) (3 / 100) ≤ ε := by linarith
    linarith
  · intro t h1 h2
    have h3 : ¬ (t < 3 / 100) := by linarith
    unfold rippleWindow
    rw [if_neg h3, if_pos h2]
  · intro t h1 h2
    have h3 : ¬ (t < 3 / 100) := by linarith
    have h4 : ¬ (t < 1 / 10) := by linarith
    unfold rippleWindow
    rw [if_neg h3, if_neg h4]
  · -- w tends to 0 as tNorm → 1⁻
    intro ε hε
    refine ⟨min (9 / 10 * ε) (9 / 10), lt_min (by positivity) (by norm_num), ?_⟩
    intro t ht1 ht2
    have hδ1 : min (9 / 10 * ε) (9 / 10) ≤ 9 / 10 * ε := min_le_left _ _
    have hδ2 : min (9 / 10 * ε) (9 / 10) ≤ 9 / 10 := min_le_right _ _
    have h3 : ¬ (t < 3 / 100) := by linarith
    have h4 : ¬ (t < 1 / 10) := by linarith
    have hw : rippleWindow t = (1 - t) * (10 / 9) := by
      unfold rippleWindow
      rw [if_neg h3, if_neg h4]; ring
    have hnn : (0:ℚ) ≤ (1 - t) * (10 / 9) := by nlinarith
    rw [hw, abs_of_nonneg hnn]
    linarith
  · intro a b ha hab hb1
    have ha3 : ¬ (a < 3 / 100) := by linarith
    have ha4 : ¬ (a < 1 / 10) := by linarith
    have hb3 : ¬ (b < 3 / 100) := by linarith
    have hb4 : ¬ (b < 1 / 10) := by linarith
    unfold rippleWindow
    rw [if_neg ha3, if_neg ha4, if_neg hb3, if_neg hb4]
    have e1 : (a - 1 / 10) / (9 / 10) = (a - 1 / 10) * (10 / 9) := by ring
    have e2 : (b - 1 / 10) / (9 / 10) = (b - 1 / 10) * (10 / 9) := by ring
    rw [e1, e2]
    linarith

/-- Witness for the intensity-curve theorem at concrete inputs. -/
theorem rippleWindow_envelope_witness :
    rippleWindow (1 / 50) = smoothstepQ 0 (3 / 100) (1 / 50)
    ∧ rippleWindow (1 / 20) = 1
    ∧ rippleWindow (1 / 2) ≤ rippleWindow (2 / 10) := by
  refine ⟨rippleWindow_envelope.2.1 (1 / 50) (by norm_num) (by norm_num),
          rippleWindow_envelope.2.2.2.2.2.2.2.2.2.2.1,
          rippleWindow_envelope.2.2.2.2.2.2.2.2.2.1 (2 / 10) (1 / 2)
            (by norm_num) (by norm_num) (by norm_num)⟩

/-- C6: the rounded-rect mask is symmetric under (x,y) ↦ (-x,y) and under
    (x,y) ↦ (x,-y) for every uv and every corner, and for corner = 0 it
    accepts uv exactly when max(|x|,|y|) ≤ 0.5 (the axis-aligned square
    test). -/
theorem roundedRectMask_symm_and_square :
    (∀ uv : ℚ × ℚ, ∀ corner : ℚ,
      roundedRectMask (-uv.1, uv.2) corner = roundedRectMask uv corner)
    ∧ (∀ uv : ℚ × ℚ, ∀ corner : ℚ,
      roundedRectMask (uv.1, -uv.2) corner = roundedRectMask uv corner)
    ∧ (∀ uv : ℚ × ℚ,
      roundedRectMask uv 0 = true ↔ max |uv.1| |uv.2| ≤ 1 / 2) := by
  refine ⟨?_, ?_, ?_⟩
  · intro uv corner
    simp [roundedRectMask, abs_neg]
  · intro uv corner
    simp [roundedRectMask, abs_neg]
  · intro uv
    simp only [roundedRectMask, add_zero, Bool.and_eq_true, decide_eq_true_eq]
    constructor
    · rintro ⟨h1, -, -⟩
      have hx : |uv.1| - 1 / 2 ≤ 0 := le_trans (le_max_left _ _) h1
      have hy : |uv.2| - 1 / 2 ≤ 0 := le_trans (le_max_right _ _) h1
      exact max_le (by linarith) (by linarith)
    · intro h
      have hx : |uv.1| ≤ 1 / 2 := le_trans (le_max_left _ _) h
      have hy : |uv.2| ≤ 1 / 2 := le_trans (le_max_right _ _) h
      refine ⟨max_le (by linarith) (by linarith), le_refl 0, ?_⟩
      have e1 : max (|uv.1| - 1 / 2) 0 = 0 := max_eq_right (by linarith)
      have e2 : max (|uv.2| - 1 / 2) 0 = 0 := max_eq_right (by linarith)
      rw [e1, e2]
      norm_num

/-- Witness for the mask theorem: the point (1/4, 1/4) with corner 0 is
    accepted, via the square-test characterisation. -/
theorem roundedRectMask_symm_and_square_witness :
    roundedRectMask ((1 : ℚ) / 4, (1 : ℚ) / 4) 0 = true := by
  apply (roundedRectMask_symm_and_square.2.2 (1 / 4, 1 / 4)).mpr
  have h : |(1 : ℚ) / 4| = 1 / 4 := abs_of_nonneg (by norm_num)
  rw [h, max_self]
  norm_num

/-- C7: with sx = 2/width, sy = -2/height, ox = -1 - x*sx, oy = 1 - y*sy
    (width, height > 0), the affine data→NDC map sends the four viewbox
    corners exactly to (±1, ±1): (vbX, vbY) ↦ (-1, 1) and
    (vbX+vbW, vbY+vbH) ↦ (1, -1), with the Y axis flipped. -/
theorem projMap_corners (vb : Viewbox) (hw : 0 < vb.width) (hh : 0 < vb.height) :
    projMap vb (vb.x, vb.y) = (-1, 1)
    ∧ projMap vb (vb.x + vb.width, vb.y) = (1, 1)
    ∧ projMap vb (vb.x, vb.y + vb.height) = (-1, -1)
    ∧ projMap vb (vb.x + vb.width, vb.y + vb.height) = (1, -1) := by
  have hw0 : vb.width ≠ 0 := ne_of_gt hw
  have hh0 : vb.height ≠ 0 := ne_of_gt hh
  simp only [projMap, projScale, projOffset, Prod.mk.injEq]
  refine ⟨⟨?_, ?_⟩, ⟨?_, ?_⟩, ⟨?_, ?_⟩, ?_, ?_⟩ <;> field_simp <;> ring

/-- Witness for the projection theorem at the scenario-B viewbox
    {x:3, y:3, width:4, height:4}. -/
theorem projMap_corners_witness :
    projMap ⟨3, 3, 4, 4⟩ (3, 3) = (-1, 1) :=
  (projMap_corners ⟨3, 3, 4, 4⟩ (by norm_num) (by norm_num)).1

/-- Remainder against the floor quotient lies in [0, c) for c > 0. -/
theorem floorRem_bounds (a c : ℚ) (hc : 0 < c) :
    0 ≤ a - c * ⌊a / c⌋ ∧ a - c * ⌊a / c⌋ < c := by
  constructor
  · have h := Int.floor_le (a / c)
    have h2 : c * ((⌊a / c⌋ : ℚ)) ≤ c * (a / c) := mul_le_mul_of_nonneg_left h hc.le
    have h3 : c * (a / c) = a := by field_simp
    linarith
  · have h := Int.lt_floor_add_one (a / c)
    have h2 : c * (a / c) < c * ((⌊a / c⌋ : ℚ) + 1) := mul_lt_mul_of_pos_left h hc
    have h3 : c * (a / c) = a := by field_simp
    have h4 : c * ((⌊a / c⌋ : ℚ) + 1) = c * (⌊a / c⌋ : ℚ) + c := by ring
    linarith

/-- C1 counterexample: the claim fails on the code.  With the valid
    configuration cycle = 10, seedPhase = 0 ∈ [0, 10), travelSec = 0 ≥ 0,
    jitter = -1/5 ∈ [-1/4, 1/4) (rngJitter = 1/2), the JavaScript remainder
    keeps the sign of the dividend, so the computed delay is +1/5 — not in
    [-cycle, 0).  Moreover, for 0 < cycle = 1/20000 < 0.0001 the exact-zero
    nudge produces -0.0001 < -cycle, also outside [-cycle, 0). -/
theorem computeDelay_counterexample :
    computeDelay 0 0 (-(1 / 5)) 10 = 1 / 5
    ∧ ¬ (computeDelay 0 0 (-(1 / 5)) 10 < 0)
    ∧ computeDelay 0 0 0 (1 / 20000) = -(1 / 10000)
    ∧ computeDelay 0 0 0 (1 / 20000) < -(1 / 20000) := by
  refine ⟨?_, ?_, ?_, ?_⟩ <;> norm_num [computeDelay, jsRem]

/-- C1 amended: whenever the raw phase seedPhase + travelSec + jitter is
    nonnegative and cycle ≥ 0.0001, the computed per-point delay lies in
    [-cycle, 0); in particular it is never exactly 0. -/
theorem computeDelay_range (sp ts j cyc : ℚ)
    (hraw : 0 ≤ sp + ts + j) (hcyc : 1 / 10000 ≤ cyc) :
    -cyc ≤ computeDelay sp ts j cyc ∧ computeDelay sp ts j cyc < 0 := by
  have hc0 : (0 : ℚ) < cyc := by linarith
  have hrem : jsRem (sp + ts + j) cyc = (sp + ts + j) - cyc * ⌊(sp + ts + j) / cyc⌋ := by
    unfold jsRem
    rw [if_pos hraw]
  obtain ⟨hr0, hr1⟩ := floorRem_bounds (sp + ts + j) cyc hc0
  rw [← hrem] at hr0 hr1
  simp only [computeDelay]
  split_ifs with h
  · constructor
    · linarith
    · norm_num
  · have hx : jsRem (sp + ts + j) cyc ≠ 0 := by
      intro he
      exact h (by rw [he]; ring)
    have hpos : 0 < jsRem (sp + ts + j) cyc := lt_of_le_of_ne hr0 (Ne.symm hx)
    constructor
    · linarith
    · linarith

/-- Witness for the amended delay-range theorem at a concrete valid input. -/
theorem computeDelay_range_witness :
    -10 ≤ computeDelay (3 / 2) (1 / 2) (1 / 10) 10
    ∧ computeDelay (3 / 2) (1 / 2) (1 / 10) 10 < 0 :=
  computeDelay_range (3 / 2) (1 / 2) (1 / 10) 10 (by norm_num) (by norm_num)

/-- GLSL smoothstep always lands in [0,1]: the interpolant is clamped. -/
theorem smoothstepQ_mem (e0 e1 x : ℚ) :
    0 ≤ smoothstepQ e0 e1 x ∧ smoothstepQ e0 e1 x ≤ 1 := by
  simp only [smoothstepQ, clampQ]
  set u := min (max ((x - e0) / (e1 - e0)) 0) 1 with hu
  have h0 : 0 ≤ u := le_min (le_max_right _ _) zero_le_one
  have h1 : u ≤ 1 := min_le_right _ _
  constructor
  · nlinarith [mul_nonneg (mul_nonneg h0 h0) (show (0 : ℚ) ≤ 3 - 2 * u by linarith)]
  · nlinarith [mul_nonneg (sq_nonneg (1 - u)) (show (0 : ℚ) ≤ 1 + 2 * u by linarith)]

/-- The intensity curve stays within [0,1] on [0,1). -/
theorem rippleWindow_mem (t : ℚ) (h0 : 0 ≤ t) (h1 : t < 1) :
    0 ≤ rippleWindow t ∧ rippleWindow t ≤ 1 := by
  unfold rippleWindow
  split_ifs with hA hB
  · exact smoothstepQ_mem 0 (3 / 100) t
  · norm_num
  · push_neg at hA hB
    have e : (t - 1 / 10) / (9 / 10) = (t - 1 / 10) * (10 / 9) := by ring
    rw [e]
    constructor
    · nlinarith
    · nlinarith

/-- GLSL mix with a weight in [0,1] is a convex combination: it stays
    between the two mixed values. -/
theorem mixQ_mem (a b w : ℚ) (h0 : 0 ≤ w) (h1 : w ≤ 1) :
    min a b ≤ mixQ a b w ∧ mixQ a b w ≤ max a b := by
  unfold mixQ
  constructor
  · nlinarith [mul_nonneg (sub_nonneg.mpr (min_le_left a b)) (sub_nonneg.mpr h1),
      mul_nonneg (sub_nonneg.mpr (min_le_right a b)) h0]
  · nlinarith [mul_nonneg (sub_nonneg.mpr (le_max_left a b)) (sub_nonneg.mpr h1),
      mul_nonneg (sub_nonneg.mpr (le_max_right a b)) h0]

/-- C10: for every tNorm in [0,1) the intensity w(tNorm) lies in [0,1];
    consequently the color mix(idle, bright, w) of every non-discarded pixel is
    componentwise between the idle and bright colors, with alpha exactly 1,
    for every time and delay value (GLSL mod keeps tNorm in [0,1) for any
    sign of the phase). -/
theorem shadePixel_convex (cycle : ℚ) (hc : 0 < cycle) :
    (∀ tNorm : ℚ, 0 ≤ tNorm → tNorm < 1 →
      0 ≤ rippleWindow tNorm ∧ rippleWindow tNorm ≤ 1)
    ∧ ∀ time delay : ℚ, ∀ idle bright : ℚ × ℚ × ℚ,
      (shadePixel time delay cycle idle bright).2 = 1
      ∧ min idle.1 bright.1 ≤ (shadePixel time delay cycle idle bright).1.1
      ∧ (shadePixel time delay cycle idle bright).1.1 ≤ max idle.1 bright.1
      ∧ min idle.2.1 bright.2.1 ≤ (shadePixel time delay cycle idle bright).1.2.1
      ∧ (shadePixel time delay cycle idle bright).1.2.1 ≤ max idle.2.1 bright.2.1
      ∧ min idle.2.2 bright.2.2 ≤ (shadePixel time delay cycle idle bright).1.2.2
      ∧ (shadePixel time delay cycle idle bright).1.2.2 ≤ max idle.2.2 bright.2.2 := by
  refine ⟨rippleWindow_mem, ?_⟩
  intro time delay idle bright
  have he : glslMod (time + delay) cycle
      = (time + delay) - cycle * ⌊(time + delay) / cycle⌋ := rfl
  obtain ⟨hm0, hm1⟩ := floorRem_bounds (time + delay) cycle hc
  rw [← he] at hm0 hm1
  have ht0 : 0 ≤ glslMod (time + delay) cycle / cycle := div_nonneg hm0 hc.le
  have ht1 : glslMod (time + delay) cycle / cycle < 1 := (div_lt_one hc).mpr hm1
  obtain ⟨hw0, hw1⟩ := rippleWindow_mem _ ht0 ht1
  exact ⟨rfl,
    (mixQ_mem _ _ _ hw0 hw1).1, (mixQ_mem _ _ _ hw0 hw1).2,
    (mixQ_mem _ _ _ hw0 hw1).1, (mixQ_mem _ _ _ hw0 hw1).2,
    (mixQ_mem _ _ _ hw0 hw1).1, (mixQ_mem _ _ _ hw0 hw1).2⟩

/-- Witness for the pixel-convexity theorem at concrete uniforms. -/
theorem shadePixel_convex_witness :
    (shadePixel 5 (-(1 / 2)) 10 (0, 0, 0) (1, 1, 1)).2 = 1 :=
  ((shadePixel_convex 10 (by norm_num)).2 5 (-(1 / 2)) (0, 0, 0) (1, 1, 1)).1

/-- The running-minimum update yields a defined value bounded by the new
    sample and by any previous value. -/
theorem updMin_spec (o : Option ℚ) (x : ℚ) :
    ∃ w, updMin o x = some w ∧ w ≤ x ∧ ∀ v, o = some v → w ≤ v := by
  cases o with
  | none =>
    refine ⟨x, rfl, le_refl _, ?_⟩
    intro v hv
    simp at hv
  | some v0 =>
    simp only [updMin]
    split_ifs with h
    · refine ⟨x, rfl, le_refl _, ?_⟩
      intro v hv
      obtain rfl := Option.some.inj hv
      exact le_of_lt h
    · refine ⟨v0, rfl, not_lt.mp h, ?_⟩
      intro v hv
      obtain rfl := Option.some.inj hv
      exact le_refl _

/-- The running-maximum update yields a defined value at least the new
    sample and any previous value. -/
theorem updMax_spec (o : Option ℚ) (x : ℚ) :
    ∃ w, updMax o x = some w ∧ x ≤ w ∧ ∀ v, o = some v → v ≤ w := by
  cases o with
  | none =>
    refine ⟨x, rfl, le_refl _, ?_⟩
    intro v hv
    simp at hv
  | some v0 =>
    simp only [updMax]
    split_ifs with h
    · refine ⟨x, rfl, le_refl _, ?_⟩
      intro v hv
      obtain rfl := Option.some.inj hv
      exact le_of_lt h
    · refine ⟨v0, rfl, not_lt.mp h, ?_⟩
      intro v hv
      obtain rfl := Option.some.inj hv
      exact le_refl _

/-- Invariant of the bounds loop: the final minima/maxima are defined and
    bound every scanned point (and every previously accumulated bound), and
    maxR only grows and dominates every scanned radius. -/
theorem foldBounds_spec (pts : List Pt) :
    ∀ acc : BoundsAcc,
    (acc.maxR ≤ (pts.foldl boundsStep acc).maxR)
    ∧ (∀ v, acc.minX = some v → ∃ w, (pts.foldl boundsStep acc).minX = some w ∧ w ≤ v)
    ∧ (∀ v, acc.maxX = some v → ∃ w, (pts.foldl boundsStep acc).maxX = some w ∧ v ≤ w)
    ∧ (∀ v, acc.minY = some v → ∃ w, (pts.foldl boundsStep acc).minY = some w ∧ w ≤ v)
    ∧ (∀ v, acc.maxY = some v → ∃ w, (pts.foldl boundsStep acc).maxY = some w ∧ v ≤ w)
    ∧ (∀ p ∈ pts,
        (∃ w, (pts.foldl boundsStep acc).minX = some w ∧ w ≤ p.x)
        ∧ (∃ w, (pts.foldl boundsStep acc).maxX = some w ∧ p.x ≤ w)
        ∧ (∃ w, (pts.foldl boundsStep acc).minY = some w ∧ w ≤ p.y)
        ∧ (∃ w, (pts.foldl boundsStep acc).maxY = some w ∧ p.y ≤ w)
        ∧ rOf p ≤ (pts.foldl boundsStep acc).maxR) := by
  induction pts with
  | nil =>
    intro acc
    refine ⟨le_refl _, ?_, ?_, ?_, ?_, ?_⟩
    · exact fun v hv => ⟨v, hv, le_refl _⟩
    · exact fun v hv => ⟨v, hv, le_refl _⟩
    · exact fun v hv => ⟨v, hv, le_refl _⟩
    · exact fun v hv => ⟨v, hv, le_refl _⟩
    · intro p hp
      exact absurd hp (List.not_mem_nil p)
  | cons p ps ih =>
    intro acc
    simp only [List.foldl_cons]
    obtain ⟨iR, iminX, imaxX, iminY, imaxY, imem⟩ := ih (boundsStep acc p)
    have hstepR : (boundsStep acc p).maxR
        = if rOf p > acc.maxR then rOf p else acc.maxR := rfl
    have hr1 : acc.maxR ≤ (boundsStep acc p).maxR := by
      rw [hstepR]
      split_ifs with h
      · exact le_of_lt h
      · exact le_refl _
    have hr2 : rOf p ≤ (boundsStep acc p).maxR := by
      rw [hstepR]
      split_ifs with h
      · exact le_refl _
      · exact not_lt.mp h
    obtain ⟨wx, hwx1, hwx2, hwx3⟩ := updMin_spec acc.minX p.x
    obtain ⟨wX, hwX1, hwX2, hwX3⟩ := updMax_spec acc.maxX p.x
    obtain ⟨wy, hwy1, hwy2, hwy3⟩ := updMin_spec acc.minY p.y
    obtain ⟨wY, hwY1, hwY2, hwY3⟩ := updMax_spec acc.maxY p.y
    have ex : (boundsStep acc p).minX = updMin acc.minX p.x := rfl
    have eX : (boundsStep acc p).maxX = updMax acc.maxX p.x := rfl
    have ey : (boundsStep acc p).minY = updMin acc.minY p.y := rfl
    have eY : (boundsStep acc p).maxY = updMax acc.maxY p.y := rfl
    rw [← ex] at hwx1
    rw [← eX] at hwX1
    rw [← ey] at hwy1
    rw [← eY] at hwY1
    refine ⟨le_trans hr1 iR, ?_, ?_, ?_, ?_, ?_⟩
    · intro v hv
      obtain ⟨w, hw, hle⟩ := iminX wx hwx1
      exact ⟨w, hw, le_trans hle (hwx3 v hv)⟩
    · intro v hv
      obtain ⟨w, hw, hle⟩ := imaxX wX hwX1
      exact ⟨w, hw, le_trans (hwX3 v hv) hle⟩
    · intro v hv
      obtain ⟨w, hw, hle⟩ := iminY wy hwy1
      exact ⟨w, hw, le_trans hle (hwy3 v hv)⟩
    · intro v hv
      obtain ⟨w, hw, hle⟩ := imaxY wY hwY1
      exact ⟨w, hw, le_trans (hwY3 v hv) hle⟩
    · intro q hq
      rcases List.mem_cons.mp hq with hq | hq
      · subst hq
        refine ⟨?_, ?_, ?_, ?_, le_trans hr2 iR⟩
        · obtain ⟨w, hw, hle⟩ := iminX wx hwx1
          exact ⟨w, hw, le_trans hle hwx2⟩
        · obtain ⟨w, hw, hle⟩ := imaxX wX hwX1
          exact ⟨w, hw, le_trans hwX2 hle⟩
        · obtain ⟨w, hw, hle⟩ := iminY wy hwy1
          exact ⟨w, hw, le_trans hle hwy2⟩
        · obtain ⟨w, hw, hle⟩ := imaxY wY hwY1
          exact ⟨w, hw, le_trans hwY2 hle⟩
      · exact imem q hq

/-- C4: for every non-empty point sequence the viewbox has origin
    (minX - pad, minY - pad) and size (maxX-minX+2*pad, maxY-minY+2*pad)
    with pad = max(maxR, 1); its width and height are strictly positive
    (even for a single point) and it contains every point expanded by its
    radius; in particular for the single point {x:5, y:5, r:2} the viewbox
    is {x:3, y:3, width:4, height:4}. -/
theorem viewboxOf_spec :
    (∀ pts : List Pt, pts ≠ [] →
      0 < (viewboxOf pts).width ∧ 0 < (viewboxOf pts).height
      ∧ ∀ p ∈ pts,
        (viewboxOf pts).x ≤ p.x - rOf p
        ∧ p.x + rOf p ≤ (viewboxOf pts).x + (viewboxOf pts).width
        ∧ (viewboxOf pts).y ≤ p.y - rOf p
        ∧ p.y + rOf p ≤ (viewboxOf pts).y + (viewboxOf pts).height)
    ∧ viewboxOf [⟨5, 5, some 2⟩] = ⟨3, 3, 4, 4⟩ := by
  constructor
  · intro pts hne
    obtain ⟨p0, rest, rfl⟩ := List.exists_cons_of_ne_nil hne
    obtain ⟨hR0, -, -, -, -, hmem⟩ :=
      foldBounds_spec (p0 :: rest) ⟨none, none, none, none, 0⟩
    obtain ⟨⟨wx, hwx, hwx0⟩, ⟨wX, hwX, hwX0⟩, ⟨wy, hwy, hwy0⟩, ⟨wY, hwY, hwY0⟩, -⟩ :=
      hmem p0 (List.mem_cons_self p0 rest)
    have hb : scanBounds (p0 :: rest)
        = (p0 :: rest).foldl boundsStep ⟨none, none, none, none, 0⟩ := rfl
    rw [← hb] at hR0 hwx hwX hwy hwY
    have hpads : (1 : ℚ) ≤ max (scanBounds (p0 :: rest)).maxR 1 := le_max_right _ _
    have hpadR : (scanBounds (p0 :: rest)).maxR ≤ max (scanBounds (p0 :: rest)).maxR 1 :=
      le_max_left _ _
    have hvx : (viewboxOf (p0 :: rest)).x
        = (scanBounds (p0 :: rest)).minX.getD 0 - max (scanBounds (p0 :: rest)).maxR 1 := rfl
    have hvy : (viewboxOf (p0 :: rest)).y
        = (scanBounds (p0 :: rest)).minY.getD 0 - max (scanBounds (p0 :: rest)).maxR 1 := rfl
    have hvw : (viewboxOf (p0 :: rest)).width
        = ((scanBounds (p0 :: rest)).maxX.getD 0 - (scanBounds (p0 :: rest)).minX.getD 0)
          + max (scanBounds (p0 :: rest)).maxR 1 * 2 := rfl
    have hvh : (viewboxOf (p0 :: rest)).height
        = ((scanBounds (p0 :: rest)).maxY.getD 0 - (scanBounds (p0 :: rest)).minY.getD 0)
          + max (scanBounds (p0 :: rest)).maxR 1 * 2 := rfl
    simp only [hwx, hwX, hwy, hwY, Option.getD_some] at hvx hvy hvw hvh
    refine ⟨?_, ?_, ?_⟩
    · rw [hvw]
      linarith
    · rw [hvh]
      linarith
    · intro p hp
      obtain ⟨⟨w1, hw1, hle1⟩, ⟨w2, hw2, hle2⟩, ⟨w3, hw3, hle3⟩, ⟨w4, hw4, hle4⟩, hr⟩ :=
        hmem p hp
      rw [← hb] at hw1 hw2 hw3 hw4 hr
      rw [hwx] at hw1
      rw [hwX] at hw2
      rw [hwy] at hw3
      rw [hwY] at hw4
      obtain rfl := Option.some.inj hw1
      obtain rfl := Option.some.inj hw2
      obtain rfl := Option.some.inj hw3
      obtain rfl := Option.some.inj hw4
      have hrpad : rOf p ≤ max (scanBounds (p0 :: rest)).maxR 1 := le_trans hr hpadR
      refine ⟨?_, ?_, ?_, ?_⟩
      · rw [hvx]
        linarith
      · rw [hvx, hvw]
        linarith
      · rw [hvy]
        linarith
      · rw [hvy, hvh]
        linarith
  · norm_num [viewboxOf, scanBounds, boundsStep, updMin, updMax, rOf, max_def,
      Viewbox.mk.injEq]

/-- Witness for the viewbox theorem on the scenario-B singleton dataset. -/
theorem viewboxOf_spec_witness :
    0 < (viewboxOf [⟨5, 5, some 2⟩]).width :=
  (viewboxOf_spec.1 [⟨5, 5, some 2⟩] (by simp)).1

/-- C3 counterexample: the claim that under reduced motion "the animation
    loop does not self-reschedule" fails on the code: in the reduced-motion
    start state (Paused) the callback still calls requestAnimationFrame
    unconditionally, so a tick at tMs = 16 reschedules. -/
theorem frameDriver_counterexample :
    (initFrameState true).running = false
    ∧ (animate (initFrameState true) 16).2 = true := ⟨rfl, rfl⟩

/-- C3 amended: with reduced motion the driver starts Paused and exactly one
    frame is drawn at time 0; the loop performs no further draws while it
    stays Paused (any sequence of ticks), though each callback invocation
    reschedules itself; without reduced motion the driver starts Running. -/
theorem frameDriver_reducedMotion :
    (initFrameState true).running = false
    ∧ (initFrameState true).draws = [0]
    ∧ (∀ ts : List ℚ,
        (ts.foldl (fun s t => (animate s t).1) (initFrameState true)).draws = [0])
    ∧ (∀ s : FrameState, ∀ t : ℚ, (animate s t).2 = true)
    ∧ (initFrameState false).running = true := by
  refine ⟨rfl, rfl, ?_, fun s t => rfl, rfl⟩
  intro ts
  have key : ∀ (l : List ℚ) (s : FrameState), s.running = false →
      l.foldl (fun s t => (animate s t).1) s = s := by
    intro l
    induction l with
    | nil => intro s _; rfl
    | cons t l ihl =>
      intro s hs
      have hstep : (animate s t).1 = s := by
        simp [animate, hs]
      simp only [List.foldl_cons, hstep]
      exact ihl s hs
  rw [key ts (initFrameState true) rfl]
  rfl

/-- Witness for the frame-driver theorem: two paused ticks leave the single
    reduced-motion frame as the only draw. -/
theorem frameDriver_reducedMotion_witness :
    (([16, 32] : List ℚ).foldl (fun s t => (animate s t).1) (initFrameState true)).draws
      = [0] :=
  frameDriver_reducedMotion.2.2.1 [16, 32]

/-- C9: on every fatal initialization condition the standalone initRipple
    returns or throws before the frame loop is entered: requestAnimationFrame
    is never called on an error path, and conversely it is called only when
    initialization fully succeeds. -/
theorem initRipple_no_raf_on_error :
    (∀ e : InitEnv, (initRippleModel e).1 ≠ InitResult.ok → (initRippleModel e).2 = false)
    ∧ (∀ e : InitEnv, (initRippleModel e).2 = true → (initRippleModel e).1 = InitResult.ok) := by
  have h : ∀ e : InitEnv,
      (initRippleModel e).1 = InitResult.ok ∨ (initRippleModel e).2 = false := by
    intro e
    unfold initRippleModel
    cases hp : e.payload with
    | none => split_ifs <;> simp
    | some pts =>
      dsimp only
      split_ifs <;> simp
  constructor
  · intro e hne
    rcases h e with hok | hfalse
    · exact absurd hok hne
    · exact hfalse
  · intro e htrue
    rcases h e with hok | hfalse
    · exact hok
    · rw [hfalse] at htrue
      cases htrue

/-- Witness for the error-path theorem: a failed fetch never registers the
    frame callback. -/
theorem initRipple_no_raf_witness :
    (initRippleModel ⟨true, true, true, false, some [⟨5, 5, some 2⟩], true, true⟩).2
      = false := by
  apply initRipple_no_raf_on_error.1
  simp [initRippleModel]

/-- Moving the k-th element of a list to the front while writing x into its
    old slot is a permutation of consing x. -/
theorem set_cons_perm :
    ∀ (t : List ℕ) (k : ℕ) (x : ℕ), k < t.length →
      List.Perm (t.getD k 0 :: t.set k x) (x :: t) := by
  intro t
  induction t with
  | nil =>
    intro k x hk
    exact absurd hk (Nat.not_lt_zero k)
  | cons y s ihs =>
    intro k x hk
    cases k with
    | zero =>
      simp only [List.getD_cons_zero, List.set_cons_zero]
      exact List.Perm.swap x y s
    | succ k =>
      simp only [List.getD_cons_succ, List.set_cons_succ]
      have h1 : List.Perm (s.getD k 0 :: y :: s.set k x) (y :: s.getD k 0 :: s.set k x) :=
        List.Perm.swap y (s.getD k 0) (s.set k x)
      have h2 : List.Perm (y :: s.getD k 0 :: s.set k x) (y :: x :: s) :=
        (ihs k x (Nat.lt_of_succ_lt_succ hk)).cons y
      have h3 : List.Perm (y :: x :: s) (x :: y :: s) := List.Perm.swap x y s
      exact (h1.trans h2).trans h3

/-- The JavaScript destructuring swap permutes the list when both indices
    are in range. -/
theorem lswap_perm :
    ∀ (l : List ℕ) (i j : ℕ), i < l.length → j < l.length →
      List.Perm (lswap l i j) l := by
  intro l
  induction l with
  | nil =>
    intro i j hi _
    exact absurd hi (Nat.not_lt_zero i)
  | cons y t iht =>
    intro i j hi hj
    cases i with
    | zero =>
      cases j with
      | zero =>
        simp only [lswap, List.getD_cons_zero, List.set_cons_zero]
        exact List.Perm.refl _
      | succ j =>
        have hj' : j < t.length := Nat.lt_of_succ_lt_succ hj
        simp only [lswap, List.getD_cons_zero, List.getD_cons_succ,
          List.set_cons_zero, List.set_cons_succ]
        exact set_cons_perm t j y hj'
    | succ i =>
      cases j with
      | zero =>
        have hi' : i < t.length := Nat.lt_of_succ_lt_succ hi
        simp only [lswap, List.getD_cons_zero, List.getD_cons_succ,
          List.set_cons_zero, List.set_cons_succ]
        exact set_cons_perm t i y hi'
      | succ j =>
        have hi' : i < t.length := Nat.lt_of_succ_lt_succ hi
        have hj' : j < t.length := Nat.lt_of_succ_lt_succ hj
        simp only [lswap, List.getD_cons_succ, List.set_cons_succ]
        exact (iht i j hi' hj').cons y

/-- The swap preserves length. -/
theorem lswap_length (l : List ℕ) (i j : ℕ) : (lswap l i j).length = l.length := by
  simp [lswap]

/-- The Fisher-Yates loop permutes the index array whenever the random
    index source satisfies the loop bound g(i) ≤ i. -/
theorem fyLoop_perm (g : ℕ → ℕ) (hg : ∀ t, g t ≤ t) :
    ∀ (i : ℕ) (l : List ℕ), i < l.length → List.Perm (fyLoop g i l) l := by
  intro i
  induction i with
  | zero =>
    intro l _
    exact List.Perm.refl l
  | succ i ihi =>
    intro l hi
    have hji : g (i + 1) ≤ i + 1 := hg (i + 1)
    have hj : g (i + 1) < l.length := lt_of_le_of_lt hji hi
    have hlen : (lswap l (i + 1) (g (i + 1))).length = l.length := lswap_length l _ _
    have h1 : List.Perm (fyLoop g i (lswap l (i + 1) (g (i + 1))))
        (lswap l (i + 1) (g (i + 1))) := by
      apply ihi
      rw [hlen]
      exact lt_trans (Nat.lt_succ_self i) hi
    have h2 : List.Perm (lswap l (i + 1) (g (i + 1))) l := lswap_perm l _ _ hi hj
    exact h1.trans h2

/-- The shuffled index array is a permutation of range n. -/
theorem shuffleIndices_perm (g : ℕ → ℕ) (hg : ∀ t, g t ≤ t) (n : ℕ) :
    List.Perm (shuffleIndices g n) (List.range n) := by
  cases n with
  | zero => exact List.Perm.refl _
  | succ n =>
    apply fyLoop_perm g hg
    rw [List.length_range]
    exact Nat.sub_lt (Nat.succ_pos n) Nat.one_pos

/-- The clamped seed count never exceeds the point count: round(n*f) ≤ n for
    f ≤ 1, the min can only shrink it, and the max-with-1 stays ≤ n since
    n ≥ 1. -/
theorem seedCount_le (n maxSeeds : ℕ) (f : ℚ) (hn : 1 ≤ n) (hf1 : f ≤ 1) :
    seedCount n f maxSeeds ≤ n := by
  unfold seedCount jsRound
  rw [Int.toNat_le]
  apply max_le
  · exact_mod_cast hn
  · apply le_trans (min_le_right _ _)
    rw [← Int.lt_add_one_iff, Int.floor_lt]
    push_cast
    have h : (n : ℚ) * f ≤ n := mul_le_of_le_one_right (by positivity) hf1
    linarith

/-- C5: for every point count n ≥ 1, seedFraction in (0,1], maxSeeds ≥ 1 and
    in-range random source, the seed selector (Fisher-Yates shuffle, take the
    first k = clamp(round(n*seedFraction), 1, maxSeeds), re-sort ascending)
    produces exactly k pairwise-distinct indices, each in [0, n), stored in
    strictly ascending order; for n = 1 the sole point (index 0) is the one
    seed. -/
theorem seedIdxs_spec (g : ℕ → ℕ) (n maxSeeds : ℕ) (f : ℚ)
    (hn : 1 ≤ n) (hf0 : 0 < f) (hf1 : f ≤ 1) (hms : 1 ≤ maxSeeds)
    (hg : ∀ t, g t ≤ t) :
    (seedIdxs g n f maxSeeds).length = seedCount n f maxSeeds
    ∧ (seedIdxs g n f maxSeeds).Nodup
    ∧ (∀ x ∈ seedIdxs g n f maxSeeds, x < n)
    ∧ (seedIdxs g n f maxSeeds).Pairwise (· < ·)
    ∧ (n = 1 → seedIdxs g n f maxSeeds = [0]) := by
  have hperm := shuffleIndices_perm g hg n
  have hlen : (shuffleIndices g n).length = n := by
    rw [hperm.length_eq, List.length_range]
  have hnd : (shuffleIndices g n).Nodup := hperm.nodup_iff.mpr (List.nodup_range n)
  have hkle : seedCount n f maxSeeds ≤ n := seedCount_le n maxSeeds f hn hf1
  have hsortperm : List.Perm (seedIdxs g n f maxSeeds)
      ((shuffleIndices g n).take (seedCount n f maxSeeds)) :=
    List.perm_insertionSort _ _
  have htakelen : ((shuffleIndices g n).take (seedCount n f maxSeeds)).length
      = seedCount n f maxSeeds := by
    rw [List.length_take, hlen]
    exact min_eq_left hkle
  have htakend : ((shuffleIndices g n).take (seedCount n f maxSeeds)).Nodup :=
    hnd.sublist (List.take_sublist _ _)
  have hndsort : (seedIdxs g n f maxSeeds).Nodup := hsortperm.nodup_iff.mpr htakend
  have hmem : ∀ x ∈ seedIdxs g n f maxSeeds, x < n := by
    intro x hx
    have h1 : x ∈ (shuffleIndices g n).take (seedCount n f maxSeeds) :=
      hsortperm.mem_iff.mp hx
    have h2 : x ∈ shuffleIndices g n := (List.take_sublist _ _).subset h1
    have h3 : x ∈ List.range n := hperm.mem_iff.mp h2
    exact List.mem_range.mp h3
  have hsorted : (seedIdxs g n f maxSeeds).Sorted (· ≤ ·) :=
    List.sorted_insertionSort _ _
  refine ⟨by rw [hsortperm.length_eq, htakelen], hndsort, hmem, ?_, ?_⟩
  · exact (hsorted.and hndsort).imp (fun h => lt_of_le_of_ne h.1 h.2)
  · intro h1
    subst h1
    have hsc : seedCount 1 f maxSeeds = 1 := by
      unfold seedCount jsRound
      simp only [Nat.cast_one]
      have hlt : ⌊(1 : ℚ) * f + 1 / 2⌋ ≤ 1 := by
        rw [← Int.lt_add_one_iff, Int.floor_lt]
        push_cast
        linarith
      have hmin : min (maxSeeds : ℤ) ⌊(1 : ℚ) * f + 1 / 2⌋ ≤ 1 :=
        le_trans (min_le_right _ _) hlt
      rw [max_eq_left hmin]
      rfl
    have e1 : seedIdxs g 1 f maxSeeds
        = ((List.range 1).take (seedCount 1 f maxSeeds)).insertionSort (· ≤ ·) := rfl
    rw [e1, hsc]
    decide

/-- Witness for the seed-selector theorem: n = 3, seedFraction = 1/2,
    maxSeeds = 64, identity random source (every draw at its upper bound). -/
theorem seedIdxs_spec_witness :
    (seedIdxs (fun i => i) 3 (1 / 2) 64).length = seedCount 3 (1 / 2) 64 :=
  (seedIdxs_spec (fun i => i) 3 64 (1 / 2) (by norm_num) (by norm_num) (by norm_num)
    (by norm_num) (fun t => le_refl t)).1

/-- Invariant of the nearest-seed scan: after n ≥ 1 iterations the recorded
    best is the distance of the recorded index, and that index is the FIRST
    minimiser among the first n candidates — only a strictly smaller
    distance replaces the current best. -/
theorem scanLoop_spec (d : ℕ → ℚ) :
    ∀ n : ℕ, 0 < n →
      (scanLoop d n).1 < n
      ∧ (scanLoop d n).2 = some (d (scanLoop d n).1)
      ∧ (∀ t, t < n → d (scanLoop d n).1 ≤ d t)
      ∧ (∀ t, t < (scanLoop d n).1 → d (scanLoop d n).1 < d t) := by
  intro n
  induction n with
  | zero =>
    intro h
    exact absurd h (lt_irrefl 0)
  | succ n ihn =>
    intro _
    cases Nat.eq_zero_or_pos n with
    | inl h0 =>
      subst h0
      refine ⟨Nat.zero_lt_one, rfl, ?_, ?_⟩
      · intro t ht
        have : t = 0 := Nat.lt_one_iff.mp ht
        subst this
        exact le_refl _
      · intro t ht
        exact absurd ht (Nat.not_lt_zero t)
    | inr hpos =>
      obtain ⟨h1, h2, h3, h4⟩ := ihn hpos
      have hunf : scanLoop d (n + 1)
          = if d n < d (scanLoop d n).1 then (n, some (d n))
            else ((scanLoop d n).1, some (d (scanLoop d n).1)) := by
        have hpair : scanLoop d n = ((scanLoop d n).1, some (d (scanLoop d n).1)) := by
          rw [← h2]
        conv_lhs => rw [scanLoop, hpair]
      rw [hunf]
      split_ifs with hlt
      · refine ⟨Nat.lt_succ_self n, rfl, ?_, ?_⟩
        · intro t ht
          rcases Nat.lt_succ_iff_lt_or_eq.mp ht with ht | ht
          · exact le_of_lt (lt_of_lt_of_le hlt (h3 t ht))
          · subst ht
            exact le_refl _
        · intro t ht
          exact lt_of_lt_of_le hlt (h3 t ht)
      · refine ⟨lt_trans h1 (Nat.lt_succ_self n), rfl, ?_, h4⟩
        · intro t ht
          rcases Nat.lt_succ_iff_lt_or_eq.mp ht with ht | ht
          · exact h3 t ht
          · subst ht
            exact not_lt.mp hlt

/-- C8: for every point p and non-empty seed list, the delay builder's scan
    assigns p to the seed minimizing Euclidean distance, and among equidistant
    minimisers the lowest seed index wins (only a strictly smaller distance
    replaces the current best during the ascending scan). -/
theorem nearestSeed_spec (p : Pt) (seeds : List Pt) (hne : seeds ≠ []) :
    nearestSeed p seeds < seeds.length
    ∧ (∀ t, t < seeds.length →
        Real.sqrt ((distSq p (seeds.getD (nearestSeed p seeds) ⟨0, 0, none⟩) : ℚ) : ℝ)
          ≤ Real.sqrt ((distSq p (seeds.getD t ⟨0, 0, none⟩) : ℚ) : ℝ))
    ∧ (∀ t, t < nearestSeed p seeds →
        Real.sqrt ((distSq p (seeds.getD (nearestSeed p seeds) ⟨0, 0, none⟩) : ℚ) : ℝ)
          < Real.sqrt ((distSq p (seeds.getD t ⟨0, 0, none⟩) : ℚ) : ℝ)) := by
  have hn : 0 < seeds.length := List.length_pos.mpr hne
  have hns : nearestSeed p seeds
      = (scanLoop (fun s => distSq p (seeds.getD s ⟨0, 0, none⟩)) seeds.length).1 := rfl
  obtain ⟨h1, h2, h3, h4⟩ :=
    scanLoop_spec (fun s => distSq p (seeds.getD s ⟨0, 0, none⟩)) seeds.length hn
  rw [hns]
  refine ⟨h1, ?_, ?_⟩
  · intro t ht
    apply Real.sqrt_le_sqrt
    exact_mod_cast h3 t ht
  · intro t ht
    apply Real.sqrt_lt_sqrt
    · have hnn : (0 : ℚ)
          ≤ distSq p (seeds.getD
              (scanLoop (fun s => distSq p (seeds.getD s ⟨0, 0, none⟩)) seeds.length).1
              ⟨0, 0, none⟩) := by
        unfold distSq
        positivity
      exact_mod_cast hnn
    · exact_mod_cast h4 t ht

/-- Witness for the nearest-seed theorem: the origin against seeds at the
    origin and at (3,4); the first (index 0) wins. -/
theorem nearestSeed_spec_witness :
    nearestSeed ⟨0, 0, none⟩ [⟨0, 0, none⟩, ⟨3, 4, none⟩] < 2 := by
  have h := nearestSeed_spec ⟨0, 0, none⟩ [⟨0, 0, none⟩, ⟨3, 4, none⟩] (by simp)
  simpa using h.1
